import Mathlib

set_option autoImplicit false
set_option maxRecDepth 8192
set_option linter.constructorNameAsVariable false

/-!
Verification of the cdrle run-length codec (src/lib.rs).

Bytes are modelled as `Nat` values; the source's `u8` arithmetic appears
as explicit `% 256` where the Rust code casts or wraps.  `compress` is
split into `rawCompress` (the token-emission loop, lines 24-58) followed
by `negFirst4` (the obfuscation pass, lines 60-62); `decompress` is the
structural recursion `decompressGo` over the buffer with the absolute
position carried for the per-byte de-obfuscation (lines 70-103).
`decompressLoop` is a second, instruction-faithful model of the decoder's
while loop with explicit fuel and explicit bounds-checked indexing, used
to settle the no-panic / termination claim.
-/

namespace Cdrle

/-- Maximum encodable zero-run length (src/lib.rs line 7). -/
def MAX_ZERO_RUN : Nat := 128

/-- Maximum encodable 0xFF-run length (src/lib.rs line 8). -/
def MAX_FF_RUN : Nat := 32

/-- Decoding errors (src/lib.rs lines 11-19). -/
inductive Error where
  | RunMarkerWithoutControl : Error
  | InvalidRunLength : Nat → Error
  deriving DecidableEq, Repr

/-- Control byte of a run record, modelling lines 31-32 of src/lib.rs:
`((n as u8) - 1) & 0x7f`, with bit 7 set for a 0xFF run.  The `u8` cast
is `% 256` and the wrapping subtraction of 1 is `+ 255` then `% 256`. -/
def runCtrl (is_ff : Bool) (n : Nat) : Nat :=
  let ctrl := ((n % 256 + 255) % 256) &&& 0x7f
  if is_ff then ctrl ||| 0x80 else ctrl

/-- Run-record emission (lines 28-35): marker `0x00` then the control byte. -/
def emit_run (out : List Nat) (is_ff : Bool) (n : Nat) : List Nat :=
  out ++ [0x00, runCtrl is_ff n]

/-- Flush pending runs (lines 37-41): the 0xFF run first, then the zero run.
Returns the new `(out, zero, ff)`. -/
def flush (out : List Nat) (zero ff : Nat) : List Nat × Nat × Nat :=
  let p1 : List Nat × Nat := if ff ≠ 0 then (emit_run out true ff, 0) else (out, ff)
  let p2 : List Nat × Nat := if zero ≠ 0 then (emit_run p1.1 false zero, 0) else (p1.1, zero)
  (p2.1, p2.2, p1.2)

/-- One iteration of the encoder's scan (lines 43-57), acting on the
state `(out, zero, ff)` for one input byte `b`. -/
def compressStep (st : List Nat × Nat × Nat) (b : Nat) : List Nat × Nat × Nat :=
  let out := st.1
  let zero := st.2.1
  let ff := st.2.2
  if b = 0x00 then
    let q : List Nat × Nat := if ff ≠ 0 then (emit_run out true ff, 0) else (out, ff)
    let zero1 := zero + 1
    if zero1 = MAX_ZERO_RUN then (emit_run q.1 false MAX_ZERO_RUN, 0, q.2)
    else (q.1, zero1, q.2)
  else if b = 0xFF then
    let q : List Nat × Nat := if zero ≠ 0 then (emit_run out false zero, 0) else (out, zero)
    let ff1 := ff + 1
    if ff1 = MAX_FF_RUN then (emit_run q.1 true MAX_FF_RUN, q.2, 0)
    else (q.1, q.2, ff1)
  else
    let q := flush out zero ff
    (q.1 ++ [b], q.2.1, q.2.2)

/-- The token-emission part of `compress` (lines 24-58): scan the input,
then flush whatever run is still pending. -/
def rawCompress (input : List Nat) : List Nat :=
  let st := input.foldl compressStep ([], 0, 0)
  (flush st.1 st.2.1 st.2.2).1

/-- In-place complement loop `for i in 0..n { out[i] ^= 0xFF }` over a list. -/
def negLoop (out : List Nat) (n : Nat) : List Nat :=
  (List.range n).foldl (fun o i => o.set i (o.getD i 0 ^^^ 0xFF)) out

/-- The obfuscation pass (lines 60-62): `for i in 0..min(4, out.len()) { out[i] ^= 0xFF }`. -/
def negFirst4 (out : List Nat) : List Nat :=
  negLoop out (min 4 out.length)

/-- The full encoder, `compress` (lines 22-64). -/
def compress (input : List Nat) : List Nat :=
  negFirst4 (rawCompress input)

/-- De-obfuscation of a byte read at absolute position `i`
(`read_unneg`, lines 74-80, without the index advance, which is explicit
in the callers below). -/
def unneg (i b : Nat) : Nat :=
  if i < 4 then b ^^^ 0xFF else b

/-- The decoder's scan (lines 82-100) over the part of the buffer not yet
consumed, with `i` the absolute position of its first byte.  A non-marker
byte is passed through; a marker must be followed by a control byte, which
is decoded into `len` copies of the fill byte. -/
def decompressGo (i : Nat) : List Nat → Except Error (List Nat)
  | [] => Except.ok []
  | b0 :: rest =>
    let b := unneg i b0
    if b ≠ 0x00 then (decompressGo (i + 1) rest).map (fun out => b :: out)
    else
      match rest with
      | [] => Except.error Error.RunMarkerWithoutControl
      | c0 :: rest2 =>
        let c := unneg (i + 1) c0
        let is_ff := c &&& 0x80 ≠ 0
        let len := (c &&& 0x7F) + 1
        if is_ff ∧ len > MAX_FF_RUN then Except.error (Error.InvalidRunLength len)
        else (decompressGo (i + 2) rest2).map
          (fun out => List.replicate len (if is_ff then 0xFF else 0x00) ++ out)

/-- The full decoder, `decompress` (lines 70-103). -/
def decompress (comp : List Nat) : Except Error (List Nat) :=
  decompressGo 0 comp

/-- Helper: the decoder's token scan with the de-obfuscation stripped off.
`decompressGo` over a stream whose first bytes have been pre-complemented
behaves like this function (`decompressGo_negFrom` below). -/
def decode0 : List Nat → Except Error (List Nat)
  | [] => Except.ok []
  | b :: rest =>
    if b ≠ 0x00 then (decode0 rest).map (fun out => b :: out)
    else
      match rest with
      | [] => Except.error Error.RunMarkerWithoutControl
      | c :: rest2 =>
        let is_ff := c &&& 0x80 ≠ 0
        let len := (c &&& 0x7F) + 1
        if is_ff ∧ len > MAX_FF_RUN then Except.error (Error.InvalidRunLength len)
        else (decode0 rest2).map
          (fun out => List.replicate len (if is_ff then 0xFF else 0x00) ++ out)

/-- Helper: complement the bytes sitting at absolute positions < 4, the
first byte of the list being at absolute position `i`. -/
def negFrom (i : Nat) : List Nat → List Nat
  | [] => []
  | b :: l => (if i < 4 then b ^^^ 0xFF else b) :: negFrom (i + 1) l

theorem decode0_literal (b : Nat) (rest : List Nat) (hb : ¬ b = 0x00) :
    decode0 (b :: rest) = (decode0 rest).map (fun out => b :: out) := by
  cases rest <;> simp [decode0, hb]

theorem decompressGo_cons_lit (i b0 : Nat) (rest : List Nat) (hb : unneg i b0 ≠ 0x00) :
    decompressGo i (b0 :: rest)
      = (decompressGo (i + 1) rest).map (fun out => unneg i b0 :: out) := by
  cases rest <;> simp [decompressGo, hb]

theorem runCtrl_false_spec : ∀ n, n < 129 → 1 ≤ n →
    (runCtrl false n &&& 0x7F) + 1 = n ∧ runCtrl false n &&& 0x80 = 0 := by decide

theorem runCtrl_true_spec : ∀ n, n < 33 → 1 ≤ n →
    (runCtrl true n &&& 0x7F) + 1 = n ∧ runCtrl true n &&& 0x80 = 128 := by decide

theorem decode0_run (is_ff : Bool) (n : Nat) (rest : List Nat) (h1 : 1 ≤ n)
    (h2 : n ≤ if is_ff then MAX_FF_RUN else MAX_ZERO_RUN) :
    decode0 (0x00 :: runCtrl is_ff n :: rest)
      = (decode0 rest).map
          (fun out => List.replicate n (if is_ff then 0xFF else 0x00) ++ out) := by
  cases is_ff with
  | false =>
    have h2' : n ≤ 128 := by simpa [MAX_ZERO_RUN] using h2
    obtain ⟨he, hz⟩ := runCtrl_false_spec n (by omega) h1
    simp only [decode0, hz, he]
    norm_num
  | true =>
    have h2' : n ≤ 32 := by simpa [MAX_FF_RUN] using h2
    obtain ⟨he, hz⟩ := runCtrl_true_spec n (by omega) h1
    simp only [decode0, hz, he, MAX_FF_RUN]
    norm_num [h2']

theorem negLoop_length (out : List Nat) : ∀ n, (negLoop out n).length = out.length := by
  intro n
  induction n with
  | zero => rfl
  | succ n ih =>
    unfold negLoop at ih ⊢
    rw [List.range_succ, List.foldl_append, List.foldl_cons, List.foldl_nil,
      List.length_set, ih]

theorem negLoop_getElem? (out : List Nat) : ∀ (n j : Nat),
    (negLoop out n)[j]? = if j < n then (out[j]?).map (fun b => b ^^^ 0xFF) else out[j]? := by
  intro n
  induction n with
  | zero => intro j; simp [negLoop]
  | succ n ih =>
    intro j
    have hstep : negLoop out (n + 1)
        = (negLoop out n).set n ((negLoop out n).getD n 0 ^^^ 0xFF) := by
      unfold negLoop
      rw [List.range_succ, List.foldl_append, List.foldl_cons, List.foldl_nil]
    rcases Nat.lt_trichotomy j n with hj | hj | hj
    · rw [hstep, List.getElem?_set_ne (by omega), ih, if_pos hj, if_pos (by omega)]
    · subst hj
      by_cases hlen : j < out.length
      · have hget : (negLoop out j)[j]? = out[j]? := by rw [ih, if_neg (by omega)]
        have hD : (negLoop out j).getD j 0 = out[j] := by
          rw [List.getD_eq_getElem?_getD, hget, List.getElem?_eq_getElem hlen]
          rfl
        rw [hstep, hD, List.getElem?_set_self (by rw [negLoop_length]; exact hlen),
          if_pos (by omega), List.getElem?_eq_getElem hlen]
        rfl
      · have hnone : out[j]? = none := by
          rw [List.getElem?_eq_none_iff]
          omega
        have : (negLoop out j).length ≤ j := by rw [negLoop_length]; omega
        rw [hstep, List.set_eq_of_length_le this, ih, if_neg (by omega), hnone]
        split <;> rfl
    · rw [hstep, List.getElem?_set_ne (by omega), ih, if_neg (by omega), if_neg (by omega)]

theorem negFrom_getElem? : ∀ (l : List Nat) (i j : Nat),
    (negFrom i l)[j]? = (l[j]?).map (fun b => if i + j < 4 then b ^^^ 0xFF else b) := by
  intro l
  induction l with
  | nil => intro i j; simp [negFrom]
  | cons b l ih =>
    intro i j
    cases j with
    | zero => simp [negFrom]
    | succ j =>
      simp only [negFrom, List.getElem?_cons_succ, ih (i + 1) j]
      have : i + 1 + j = i + (j + 1) := by omega
      rw [this]

theorem negFirst4_getElem? (out : List Nat) (j : Nat) :
    (negFirst4 out)[j]? = (out[j]?).map (fun b => if j < 4 then b ^^^ 0xFF else b) := by
  unfold negFirst4
  rw [negLoop_getElem?]
  by_cases hlen : j < out.length
  · by_cases h4 : j < 4
    · rw [if_pos (by omega), List.getElem?_eq_getElem hlen]
      simp [h4]
    · rw [if_neg (by omega), List.getElem?_eq_getElem hlen]
      simp [h4]
  · have hnone : out[j]? = none := by rw [List.getElem?_eq_none_iff]; omega
    rw [hnone]
    split <;> rfl

theorem negFirst4_eq_negFrom (out : List Nat) : negFirst4 out = negFrom 0 out := by
  apply List.ext_getElem?
  intro j
  rw [negFirst4_getElem?, negFrom_getElem?]
  simp

theorem negFirst4_length (out : List Nat) : (negFirst4 out).length = out.length := by
  unfold negFirst4
  exact negLoop_length out _

theorem unneg_neg (i b : Nat) : unneg i (if i < 4 then b ^^^ 0xFF else b) = b := by
  unfold unneg
  by_cases h : i < 4
  · simp [h, Nat.xor_assoc]
  · simp [h]

theorem decompressGo_negFrom : ∀ (n : Nat) (l : List Nat) (i : Nat), l.length ≤ n →
    decompressGo i (negFrom i l) = decode0 l := by
  intro n
  induction n with
  | zero =>
    intro l i h
    cases l with
    | nil => rfl
    | cons b rest => simp at h
  | succ n ih =>
    intro l i h
    cases l with
    | nil => rfl
    | cons b rest =>
      cases rest with
      | nil =>
        simp only [negFrom, decompressGo, decode0, unneg_neg]
      | cons c rest2 =>
        by_cases hb : b = 0x00
        · subst hb
          simp only [negFrom, decompressGo, decode0, unneg_neg]
          have h0 : ¬ ((0 : Nat) ≠ 0x00) := by decide
          rw [if_neg h0, if_neg h0, show i + 1 + 1 = i + 2 from rfl,
            ih rest2 (i + 2) (by simp at h; omega)]
        · simp only [negFrom, decompressGo, decode0, unneg_neg]
          rw [if_pos hb, if_pos hb]
          have hrec := ih (c :: rest2) (i + 1) (by simp at h ⊢; omega)
          simp only [negFrom] at hrec
          rw [hrec]

theorem flush_none (out : List Nat) (zero ff : Nat) (hz : zero = 0) (hf : ff = 0) :
    flush out zero ff = (out, zero, ff) := by
  simp [flush, hz, hf]

theorem flush_z (out : List Nat) (zero ff : Nat) (hz : zero ≠ 0) (hf : ff = 0) :
    flush out zero ff = (emit_run out false zero, 0, ff) := by
  simp [flush, hz, hf]

theorem flush_f (out : List Nat) (zero ff : Nat) (hz : zero = 0) (hf : ff ≠ 0) :
    flush out zero ff = (emit_run out true ff, zero, 0) := by
  simp [flush, hz, hf]

theorem flush_both (out : List Nat) (zero ff : Nat) (hz : zero ≠ 0) (hf : ff ≠ 0) :
    flush out zero ff = (emit_run (emit_run out true ff) false zero, 0, 0) := by
  simp [flush, hz, hf]

theorem cs_zero_noflush_nomax (out : List Nat) (zero ff : Nat) (hf : ff = 0)
    (hm : zero + 1 ≠ MAX_ZERO_RUN) :
    compressStep (out, zero, ff) 0x00 = (out, zero + 1, ff) := by
  simp [compressStep, hf, hm]

theorem cs_zero_noflush_max (out : List Nat) (zero ff : Nat) (hf : ff = 0)
    (hm : zero + 1 = MAX_ZERO_RUN) :
    compressStep (out, zero, ff) 0x00 = (emit_run out false MAX_ZERO_RUN, 0, ff) := by
  simp [compressStep, hf, hm]

theorem cs_zero_flush_nomax (out : List Nat) (zero ff : Nat) (hf : ff ≠ 0)
    (hm : zero + 1 ≠ MAX_ZERO_RUN) :
    compressStep (out, zero, ff) 0x00 = (emit_run out true ff, zero + 1, 0) := by
  simp [compressStep, hf, hm]

theorem cs_zero_flush_max (out : List Nat) (zero ff : Nat) (hf : ff ≠ 0)
    (hm : zero + 1 = MAX_ZERO_RUN) :
    compressStep (out, zero, ff) 0x00
      = (emit_run (emit_run out true ff) false MAX_ZERO_RUN, 0, 0) := by
  simp [compressStep, hf, hm]

theorem cs_ff_noflush_nomax (out : List Nat) (zero ff : Nat) (hz : zero = 0)
    (hm : ff + 1 ≠ MAX_FF_RUN) :
    compressStep (out, zero, ff) 0xFF = (out, zero, ff + 1) := by
  simp [compressStep, hz, hm]

theorem cs_ff_noflush_max (out : List Nat) (zero ff : Nat) (hz : zero = 0)
    (hm : ff + 1 = MAX_FF_RUN) :
    compressStep (out, zero, ff) 0xFF = (emit_run out true MAX_FF_RUN, zero, 0) := by
  simp [compressStep, hz, hm]

theorem cs_ff_flush_nomax (out : List Nat) (zero ff : Nat) (hz : zero ≠ 0)
    (hm : ff + 1 ≠ MAX_FF_RUN) :
    compressStep (out, zero, ff) 0xFF = (emit_run out false zero, 0, ff + 1) := by
  simp [compressStep, hz, hm]

theorem cs_ff_flush_max (out : List Nat) (zero ff : Nat) (hz : zero ≠ 0)
    (hm : ff + 1 = MAX_FF_RUN) :
    compressStep (out, zero, ff) 0xFF
      = (emit_run (emit_run out false zero) true MAX_FF_RUN, 0, 0) := by
  simp [compressStep, hz, hm]

theorem cs_lit (out : List Nat) (zero ff : Nat) (b : Nat) (hb0 : b ≠ 0x00)
    (hbf : b ≠ 0xFF) :
    compressStep (out, zero, ff) b
      = ((flush out zero ff).1 ++ [b], (flush out zero ff).2.1, (flush out zero ff).2.2) := by
  simp [compressStep, hb0, hbf]

/-- Helper invariant carried through the encoder's scan of a prefix `p` of
the input: the run counters stay in range and are mutually exclusive, and
the bytes emitted so far decode (before obfuscation) to `p` minus the
pending run. -/
def EncInv : List Nat × Nat × Nat → List Nat → Prop
  | (out, zero, ff), p =>
    zero ≤ 127 ∧ ff ≤ 31 ∧ (zero = 0 ∨ ff = 0) ∧
    ∃ d, p = d ++ List.replicate ff 0xFF ++ List.replicate zero 0x00 ∧
      ∀ rest res, decode0 rest = Except.ok res →
        decode0 (out ++ rest) = Except.ok (d ++ res)

theorem decode0_emit (out : List Nat) (is_ff : Bool) (nn : Nat) (d : List Nat)
    (hout : ∀ rest res, decode0 rest = Except.ok res →
      decode0 (out ++ rest) = Except.ok (d ++ res))
    (h1 : 1 ≤ nn) (h2 : nn ≤ if is_ff then MAX_FF_RUN else MAX_ZERO_RUN) :
    ∀ rest res, decode0 rest = Except.ok res →
      decode0 (emit_run out is_ff nn ++ rest)
        = Except.ok ((d ++ List.replicate nn (if is_ff then 0xFF else 0x00)) ++ res) := by
  intro rest res hres
  have hrun : decode0 (0x00 :: runCtrl is_ff nn :: rest)
      = Except.ok (List.replicate nn (if is_ff then 0xFF else 0x00) ++ res) := by
    rw [decode0_run is_ff nn rest h1 h2, hres]
    rfl
  have happ := hout (0x00 :: runCtrl is_ff nn :: rest) _ hrun
  rw [emit_run]
  rw [show (out ++ [0x00, runCtrl is_ff nn]) ++ rest
      = out ++ (0x00 :: runCtrl is_ff nn :: rest) by simp]
  rw [happ, List.append_assoc]

theorem decode0_pushLit (out : List Nat) (b : Nat) (d : List Nat)
    (hout : ∀ rest res, decode0 rest = Except.ok res →
      decode0 (out ++ rest) = Except.ok (d ++ res))
    (hb : ¬ b = 0x00) :
    ∀ rest res, decode0 rest = Except.ok res →
      decode0 ((out ++ [b]) ++ rest) = Except.ok ((d ++ [b]) ++ res) := by
  intro rest res hres
  have hl : decode0 (b :: rest) = Except.ok (b :: res) := by
    rw [decode0_literal b rest hb, hres]
    rfl
  have happ := hout (b :: rest) _ hl
  rw [show (out ++ [b]) ++ rest = out ++ (b :: rest) by simp]
  rw [happ]
  simp

theorem decode0_flush (out : List Nat) (zero ff : Nat) (d : List Nat)
    (hz : zero ≤ 128) (hf : ff ≤ 32)
    (hout : ∀ rest res, decode0 rest = Except.ok res →
      decode0 (out ++ rest) = Except.ok (d ++ res)) :
    ∀ rest res, decode0 rest = Except.ok res →
      decode0 ((flush out zero ff).1 ++ rest)
        = Except.ok ((d ++ List.replicate ff 0xFF ++ List.replicate zero 0x00) ++ res) := by
  intro rest res hres
  by_cases hf0 : ff = 0
  · by_cases hz0 : zero = 0
    · rw [flush_none out zero ff hz0 hf0]
      simp only [hf0, hz0, List.replicate_zero, List.append_nil]
      exact hout rest res hres
    · rw [flush_z out zero ff hz0 hf0]
      have := decode0_emit out false zero d hout (by omega)
        (by simpa [MAX_ZERO_RUN] using hz) rest res hres
      simpa [hf0] using this
  · by_cases hz0 : zero = 0
    · rw [flush_f out zero ff hz0 hf0]
      have := decode0_emit out true ff d hout (by omega)
        (by simpa [MAX_FF_RUN] using hf) rest res hres
      simpa [hz0] using this
    · rw [flush_both out zero ff hz0 hf0]
      have hmid := decode0_emit out true ff d hout (by omega)
        (by simpa [MAX_FF_RUN] using hf)
      have := decode0_emit (emit_run out true ff) false zero
        (d ++ List.replicate ff 0xFF) hmid (by omega)
        (by simpa [MAX_ZERO_RUN] using hz) rest res hres
      simpa [List.append_assoc] using this

theorem flush_counters (out : List Nat) (zero ff : Nat) :
    (flush out zero ff).2.1 = 0 ∧ (flush out zero ff).2.2 = 0 := by
  by_cases hf : ff ≠ 0 <;> by_cases hz : zero ≠ 0 <;> simp [flush, hf, hz] <;> omega

theorem encInv_intro (out : List Nat) (zero ff : Nat) (p : List Nat)
    (h1 : zero ≤ 127) (h2 : ff ≤ 31) (h3 : zero = 0 ∨ ff = 0) (d : List Nat)
    (h4 : p = d ++ List.replicate ff 0xFF ++ List.replicate zero 0x00)
    (h5 : ∀ rest res, decode0 rest = Except.ok res →
      decode0 (out ++ rest) = Except.ok (d ++ res)) :
    EncInv (out, zero, ff) p :=
  ⟨h1, h2, h3, d, h4, h5⟩

theorem encInv_step (out : List Nat) (zero ff : Nat) (p : List Nat) (b : Nat)
    (h : EncInv (out, zero, ff) p) : EncInv (compressStep (out, zero, ff) b) (p ++ [b]) := by
  obtain ⟨hz, hf, hmx, d, hp, hdec⟩ := h
  by_cases hb0 : b = 0x00
  · subst hb0
    by_cases hff : ff = 0
    · subst hff
      simp only [List.replicate_zero, List.append_nil] at hp
      by_cases hmax : zero + 1 = MAX_ZERO_RUN
      · rw [cs_zero_noflush_max out zero 0 rfl hmax]
        refine encInv_intro _ _ _ _ (by omega) (by omega) (Or.inl rfl)
          (d ++ List.replicate MAX_ZERO_RUN 0x00) ?_ ?_
        · rw [hp, List.append_assoc, ← List.replicate_succ', hmax]
          simp
        · intro rest res hres
          simpa using decode0_emit out false MAX_ZERO_RUN d hdec
            (by simp [MAX_ZERO_RUN]) (by simp) rest res hres
      · rw [cs_zero_noflush_nomax out zero 0 rfl hmax]
        have hz' : zero + 1 ≤ 127 := by
          simp only [MAX_ZERO_RUN] at hmax
          omega
        refine encInv_intro _ _ _ _ hz' (by omega) (Or.inr rfl) d ?_ hdec
        rw [hp, List.append_assoc, ← List.replicate_succ']
        simp
    · have hzero : zero = 0 := hmx.resolve_right hff
      subst hzero
      simp only [List.replicate_zero, List.append_nil] at hp
      have hmax' : (0 : Nat) + 1 ≠ MAX_ZERO_RUN := by simp [MAX_ZERO_RUN]
      rw [cs_zero_flush_nomax out 0 ff hff hmax']
      refine encInv_intro _ _ _ _ (by omega) (by omega) (Or.inr rfl)
        (d ++ List.replicate ff 0xFF) ?_ ?_
      · rw [hp]
        simp [List.replicate_succ']
      · intro rest res hres
        simpa using decode0_emit out true ff d hdec (by omega)
          (by simp [MAX_FF_RUN]; omega) rest res hres
  · by_cases hbf : b = 0xFF
    · subst hbf
      by_cases hzz : zero = 0
      · subst hzz
        simp only [List.replicate_zero, List.append_nil] at hp
        by_cases hmax : ff + 1 = MAX_FF_RUN
        · rw [cs_ff_noflush_max out 0 ff rfl hmax]
          refine encInv_intro _ _ _ _ (by omega) (by omega) (Or.inl rfl)
            (d ++ List.replicate MAX_FF_RUN 0xFF) ?_ ?_
          · rw [hp, List.append_assoc, ← List.replicate_succ', hmax]
            simp
          · intro rest res hres
            simpa using decode0_emit out true MAX_FF_RUN d hdec
              (by simp [MAX_FF_RUN]) (by simp) rest res hres
        · rw [cs_ff_noflush_nomax out 0 ff rfl hmax]
          have hf' : ff + 1 ≤ 31 := by
            simp only [MAX_FF_RUN] at hmax
            omega
          refine encInv_intro _ _ _ _ (by omega) hf' (Or.inl rfl) d ?_ hdec
          rw [hp, List.append_assoc, ← List.replicate_succ']
          simp
      · have hffz : ff = 0 := hmx.resolve_left hzz
        subst hffz
        simp only [List.replicate_zero, List.append_nil] at hp
        have hmax' : (0 : Nat) + 1 ≠ MAX_FF_RUN := by simp [MAX_FF_RUN]
        rw [cs_ff_flush_nomax out zero 0 hzz hmax']
        refine encInv_intro _ _ _ _ (by omega) (by omega) (Or.inl rfl)
          (d ++ List.replicate zero 0x00) ?_ ?_
        · rw [hp]
          simp [List.replicate_succ']
        · intro rest res hres
          simpa using decode0_emit out false zero d hdec (by omega)
            (by simp [MAX_ZERO_RUN]; omega) rest res hres
    · rw [cs_lit out zero ff b hb0 hbf]
      obtain ⟨hc1, hc2⟩ := flush_counters out zero ff
      rw [hc1, hc2]
      refine encInv_intro _ _ _ _ (by omega) (by omega) (Or.inl rfl) (p ++ [b])
        (by simp) ?_
      intro rest res hres
      have hout' : ∀ rest res, decode0 rest = Except.ok res →
          decode0 ((flush out zero ff).1 ++ rest) = Except.ok (p ++ res) := by
        intro rest' res' hres'
        rw [hp]
        exact decode0_flush out zero ff d (by omega) (by omega) hdec rest' res' hres'
      exact decode0_pushLit (flush out zero ff).1 b p hout' hb0 rest res hres

theorem encInv_init : EncInv ([], 0, 0) [] := by
  refine encInv_intro _ _ _ _ (by omega) (by omega) (Or.inl rfl) [] (by simp) ?_
  intro rest res h
  simpa using h

theorem encInv_foldl : ∀ (x : List Nat) (st : List Nat × Nat × Nat) (p : List Nat),
    EncInv st p → EncInv (x.foldl compressStep st) (p ++ x) := by
  intro x
  induction x with
  | nil =>
    intro st p h
    simpa using h
  | cons b x ih =>
    intro st p h
    obtain ⟨out, zf⟩ := st
    obtain ⟨zero, ff⟩ := zf
    have hstep := encInv_step out zero ff p b h
    have := ih (compressStep (out, zero, ff) b) (p ++ [b]) hstep
    simpa [List.append_assoc] using this

theorem decode0_rawCompress (x : List Nat) : decode0 (rawCompress x) = Except.ok x := by
  unfold rawCompress
  have hinv := encInv_foldl x ([], 0, 0) [] encInv_init
  rcases hfold : x.foldl compressStep ([], 0, 0) with ⟨out, zf⟩
  rcases zf with ⟨zero, ff⟩
  rw [hfold] at hinv
  simp only [List.nil_append] at hinv
  obtain ⟨hz, hf, hmx, d, hp, hdec⟩ := hinv
  show decode0 (flush out zero ff).1 = Except.ok x
  have hfin := decode0_flush out zero ff d (by omega) (by omega) hdec [] [] rfl
  simp only [List.append_nil] at hfin
  rw [hfin, hp]

theorem decompress_compress (x : List Nat) : decompress (compress x) = Except.ok x := by
  unfold decompress compress
  rw [negFirst4_eq_negFrom]
  rw [decompressGo_negFrom (rawCompress x).length (rawCompress x) 0 le_rfl]
  exact decode0_rawCompress x

/-- C1: round trip — for every byte sequence `x` (any length, including
empty), `decompress (compress x)` returns `Ok x`: decoding the encoder's
output reproduces the original input exactly. -/
theorem c1_round_trip (x : List Nat) (_hx : ∀ b ∈ x, b < 256) :
    decompress (compress x) = Except.ok x :=
  decompress_compress x

theorem c1_round_trip_witness :
    decompress (compress [0x00, 0x00, 0xFF, 0x07, 0x00]) = Except.ok [0x00, 0x00, 0xFF, 0x07, 0x00] :=
  c1_round_trip [0x00, 0x00, 0xFF, 0x07, 0x00] (by decide)

/-- Outcomes of the imperative decoder model: a normal result, a defined
error, an out-of-bounds buffer index (which in the Rust source would be a
panic), or fuel exhaustion (which would mean the while loop failed to
terminate within the given iteration bound). -/
inductive DOutcome where
  | ok : List Nat → DOutcome
  | err : Error → DOutcome
  | oob : DOutcome
  | noFuel : DOutcome
  deriving DecidableEq, Repr

/-- Instruction-faithful model of the decoder's while loop (lines 82-100):
`i` is the scan position and `out` the accumulated output.  Every buffer
access goes through `List.getElem?`, so an out-of-bounds read surfaces as
`.oob` instead of being ruled out by the shape of the model, and the loop
guard `i < comp.len()` is checked before fuel is consumed, so `.noFuel`
appears only if an iteration would run with no fuel left. -/
def decompressLoop (comp : List Nat) : Nat → Nat → List Nat → DOutcome
  | fuel, i, out =>
    if i < comp.length then
      match fuel with
      | 0 => DOutcome.noFuel
      | fuel' + 1 =>
        match comp[i]? with
        | none => DOutcome.oob
        | some b0 =>
          let b := unneg i b0
          if b ≠ 0x00 then decompressLoop comp fuel' (i + 1) (out ++ [b])
          else if comp.length ≤ i + 1 then DOutcome.err Error.RunMarkerWithoutControl
          else
            match comp[i + 1]? with
            | none => DOutcome.oob
            | some c0 =>
              let c := unneg (i + 1) c0
              let is_ff := c &&& 0x80 ≠ 0
              let len := (c &&& 0x7F) + 1
              if is_ff ∧ len > MAX_FF_RUN then DOutcome.err (Error.InvalidRunLength len)
              else decompressLoop comp fuel' (i + 2)
                (out ++ List.replicate len (if is_ff then 0xFF else 0x00))
    else DOutcome.ok out

/-- The imperative decoder model run from the start with fuel
`comp.length + 1`, which the totality theorem shows is always enough. -/
def decompressImp (comp : List Nat) : DOutcome :=
  decompressLoop comp (comp.length + 1) 0 []

/-- Embedding of decoder results into loop outcomes. -/
def outcomeOf : Except Error (List Nat) → DOutcome
  | Except.ok l => DOutcome.ok l
  | Except.error e => DOutcome.err e

theorem outcomeOf_map_assoc (x : Except Error (List Nat)) (a bdy : List Nat) :
    outcomeOf (x.map (fun l => (a ++ bdy) ++ l))
      = outcomeOf ((x.map (fun l => bdy ++ l)).map (fun l => a ++ l)) := by
  cases x <;> simp [outcomeOf, Except.map]

theorem decompressLoop_go : ∀ (fuel : Nat) (comp : List Nat) (i : Nat) (out : List Nat),
    comp.length ≤ i + fuel →
    decompressLoop comp fuel i out
      = outcomeOf ((decompressGo i (comp.drop i)).map (fun l => out ++ l)) := by
  intro fuel
  induction fuel with
  | zero =>
    intro comp i out h
    have hge : ¬ i < comp.length := by omega
    have hdrop : comp.drop i = [] := List.drop_eq_nil_iff.mpr (by omega)
    rw [decompressLoop, if_neg hge, hdrop]
    simp [decompressGo, outcomeOf, Except.map]
  | succ fuel ih =>
    intro comp i out h
    by_cases hlt : i < comp.length
    · rw [decompressLoop, if_pos hlt, List.getElem?_eq_getElem hlt]
      dsimp only
      have hdrop : comp.drop i = comp[i] :: comp.drop (i + 1) :=
        List.drop_eq_getElem_cons hlt
      rw [hdrop]
      by_cases hb : unneg i comp[i] ≠ 0x00
      · rw [ih comp (i + 1) (out ++ [unneg i comp[i]]) (by omega),
          decompressGo_cons_lit i comp[i] (comp.drop (i + 1)) hb]
        have := outcomeOf_map_assoc (decompressGo (i + 1) (comp.drop (i + 1)))
          out [unneg i comp[i]]
        simp only [List.singleton_append] at this ⊢
        rw [this, if_pos hb]
      · simp only [if_neg hb]
        by_cases hend : comp.length ≤ i + 1
        · have hdrop1 : comp.drop (i + 1) = [] := List.drop_eq_nil_iff.mpr hend
          rw [if_pos hend, hdrop1]
          have hb0 : unneg i comp[i] = 0x00 := by omega
          simp [decompressGo, hb0, outcomeOf, Except.map]
        · have hlt1 : i + 1 < comp.length := by omega
          rw [if_neg hend, List.getElem?_eq_getElem hlt1]
          have hdrop1 : comp.drop (i + 1) = comp[i + 1] :: comp.drop (i + 2) :=
            List.drop_eq_getElem_cons hlt1
          rw [hdrop1]
          simp only [decompressGo, if_neg hb]
          by_cases herr : unneg (i + 1) comp[i + 1] &&& 0x80 ≠ 0
            ∧ (unneg (i + 1) comp[i + 1] &&& 0x7F) + 1 > MAX_FF_RUN
          · rw [if_pos herr, if_pos herr]
            rfl
          · rw [if_neg herr, if_neg herr,
              ih comp (i + 2) _ (by omega)]
            exact outcomeOf_map_assoc (decompressGo (i + 2) (comp.drop (i + 2))) out _
    · have hdrop : comp.drop i = [] := List.drop_eq_nil_iff.mpr (by omega)
      rw [decompressLoop, if_neg hlt, hdrop]
      simp [decompressGo, outcomeOf, Except.map]

/-- C2: totality of the decoder — on every input the instruction-faithful
loop model (with fuel `length + 1` and bounds-checked indexing) returns
exactly the embedding of `decompress`'s result, hence an `Ok` or one of
the two defined errors; and that embedding is never the out-of-bounds
(panic) outcome nor the fuel-exhaustion (non-termination) outcome. -/
theorem c2_decoder_total (comp : List Nat) :
    decompressImp comp = outcomeOf (decompress comp) ∧
    ∀ r : Except Error (List Nat),
      outcomeOf r ≠ DOutcome.oob ∧ outcomeOf r ≠ DOutcome.noFuel := by
  constructor
  · unfold decompressImp decompress
    rw [decompressLoop_go (comp.length + 1) comp 0 [] (by omega), List.drop_zero]
    cases decompressGo 0 comp <;> simp [outcomeOf, Except.map]
  · intro r
    cases r <;> simp [outcomeOf]

theorem except_map_error {α β : Type} (x : Except Error α) (f : α → β) (e : Error) :
    x.map f = Except.error e ↔ x = Except.error e := by
  cases x <;> simp [Except.map]

theorem decompressGo_marker_fill (i b0 c0 : Nat) (rest : List Nat)
    (h0 : unneg i b0 = 0x00) (hff : unneg (i + 1) c0 &&& 0x80 ≠ 0)
    (hgt : (unneg (i + 1) c0 &&& 0x7F) + 1 > 32) :
    decompressGo i (b0 :: c0 :: rest)
      = Except.error (Error.InvalidRunLength ((unneg (i + 1) c0 &&& 0x7F) + 1)) := by
  simp only [decompressGo, h0]
  rw [if_neg (by simp)]
  rw [if_pos ⟨hff, by simpa [MAX_FF_RUN] using hgt⟩]

theorem decompressGo_marker_zeroRun (i b0 c0 : Nat) (rest : List Nat)
    (h0 : unneg i b0 = 0x00) (hz : unneg (i + 1) c0 &&& 0x80 = 0) :
    decompressGo i (b0 :: c0 :: rest)
      = (decompressGo (i + 2) rest).map
          (fun out => List.replicate ((unneg (i + 1) c0 &&& 0x7F) + 1) 0x00 ++ out) := by
  simp only [decompressGo, h0]
  rw [if_neg (by simp)]
  rw [if_neg (by simp [hz])]
  simp [hz]

theorem decompressGo_invalid : ∀ (n : Nat) (l : List Nat) (i ln : Nat), l.length ≤ n →
    decompressGo i l = Except.error (Error.InvalidRunLength ln) → 32 < ln ∧ ln ≤ 128 := by
  intro n
  induction n with
  | zero =>
    intro l i ln h he
    cases l with
    | nil => simp [decompressGo] at he
    | cons b rest => simp at h
  | succ n ih =>
    intro l i ln h he
    cases l with
    | nil => simp [decompressGo] at he
    | cons b0 rest =>
      cases rest with
      | nil =>
        by_cases hb : unneg i b0 ≠ 0x00 <;> simp [decompressGo, hb, Except.map] at he
      | cons c0 rest2 =>
        by_cases hb : unneg i b0 ≠ 0x00
        · rw [decompressGo_cons_lit i b0 (c0 :: rest2) hb, except_map_error] at he
          exact ih (c0 :: rest2) (i + 1) ln (by simp at h ⊢; omega) he
        · have hb0 : unneg i b0 = 0x00 := by omega
          by_cases hff : unneg (i + 1) c0 &&& 0x80 ≠ 0
          · by_cases hgt : (unneg (i + 1) c0 &&& 0x7F) + 1 > 32
            · rw [decompressGo_marker_fill i b0 c0 rest2 hb0 hff hgt] at he
              have hln : ln = (unneg (i + 1) c0 &&& 0x7F) + 1 := by
                cases he
                rfl
              constructor
              · omega
              · have : unneg (i + 1) c0 &&& 0x7F ≤ 0x7F := Nat.and_le_right
                omega
            · simp only [decompressGo, hb0] at he
              rw [if_neg (by simp), if_neg (by simp [MAX_FF_RUN]; omega),
                except_map_error] at he
              exact ih rest2 (i + 2) ln (by simp at h ⊢; omega) he
          · have hz : unneg (i + 1) c0 &&& 0x80 = 0 := by omega
            rw [decompressGo_marker_zeroRun i b0 c0 rest2 hb0 hz,
              except_map_error] at he
            exact ih rest2 (i + 2) ln (by simp at h ⊢; omega) he

/-- C3: the oversized fill-run error — when a de-obfuscated marker byte is
followed by a de-obfuscated control byte with bit 7 set whose decoded
length `(control AND 0x7F) + 1` exceeds 32, the decoder fails with
`InvalidRunLength` carrying exactly that length; a control byte with bit 7
clear (a zero-run) never raises this error at that step, whatever its
length field; every `InvalidRunLength {len}` the decoder ever returns has
`32 < len ≤ 128`; and the two-byte input `[0x00, 0xA0]` with both bytes
complemented yields `InvalidRunLength {len: 33}`. -/
theorem c3_invalid_run_length :
    (∀ (i b0 c0 : Nat) (rest : List Nat), unneg i b0 = 0x00 →
      unneg (i + 1) c0 &&& 0x80 ≠ 0 → (unneg (i + 1) c0 &&& 0x7F) + 1 > 32 →
      decompressGo i (b0 :: c0 :: rest)
        = Except.error (Error.InvalidRunLength ((unneg (i + 1) c0 &&& 0x7F) + 1))) ∧
    (∀ (i b0 c0 : Nat) (rest : List Nat), unneg i b0 = 0x00 →
      unneg (i + 1) c0 &&& 0x80 = 0 →
      decompressGo i (b0 :: c0 :: rest)
        = (decompressGo (i + 2) rest).map
            (fun out => List.replicate ((unneg (i + 1) c0 &&& 0x7F) + 1) 0x00 ++ out)) ∧
    (∀ (comp : List Nat) (ln : Nat),
      decompress comp = Except.error (Error.InvalidRunLength ln) → 32 < ln ∧ ln ≤ 128) ∧
    decompress [0x00 ^^^ 0xFF, 0xA0 ^^^ 0xFF] = Except.error (Error.InvalidRunLength 33) := by
  refine ⟨decompressGo_marker_fill, decompressGo_marker_zeroRun, ?_, by rfl⟩
  intro comp ln he
  exact decompressGo_invalid comp.length comp 0 ln le_rfl he

theorem c3_invalid_run_length_witness :
    decompressGo 0 [0xFF, 0x5F] = Except.error (Error.InvalidRunLength 33) ∧
    decompressGo 4 [0x00, 0x10] = Except.ok (List.replicate 17 0x00) ∧
    32 < 33 ∧ 33 ≤ 128 := by
  refine ⟨?_, ?_, ?_⟩
  · exact c3_invalid_run_length.1 0 0xFF 0x5F [] (by decide) (by decide) (by decide)
  · exact (c3_invalid_run_length.2.1 4 0x00 0x10 [] (by decide) (by decide)).trans (by rfl)
  · exact c3_invalid_run_length.2.2.1 [0xFF, 0x5F] 33 (by rfl)

theorem decompressGo_marker_last (i b0 : Nat) (h0 : unneg i b0 = 0x00) :
    decompressGo i [b0] = Except.error Error.RunMarkerWithoutControl := by
  simp [decompressGo, h0]

theorem decompressGo_rmwc : ∀ (n : Nat) (l : List Nat) (i : Nat), l.length ≤ n →
    decompressGo i l = Except.error Error.RunMarkerWithoutControl →
    ∃ pre b0, l = pre ++ [b0] ∧ unneg (i + pre.length) b0 = 0x00 := by
  intro n
  induction n with
  | zero =>
    intro l i h he
    cases l with
    | nil => simp [decompressGo] at he
    | cons b rest => simp at h
  | succ n ih =>
    intro l i h he
    cases l with
    | nil => simp [decompressGo] at he
    | cons b0 rest =>
      cases rest with
      | nil =>
        by_cases hb : unneg i b0 ≠ 0x00
        · simp [decompressGo, hb, Except.map] at he
        · exact ⟨[], b0, rfl, by simpa using hb⟩
      | cons c0 rest2 =>
        by_cases hb : unneg i b0 ≠ 0x00
        · rw [decompressGo_cons_lit i b0 (c0 :: rest2) hb, except_map_error] at he
          obtain ⟨pre, bl, heq, hu⟩ := ih (c0 :: rest2) (i + 1) (by simp at h ⊢; omega) he
          refine ⟨b0 :: pre, bl, by simp [heq], ?_⟩
          rw [show i + (b0 :: pre).length = i + 1 + pre.length by simp; omega]
          exact hu
        · have hb0 : unneg i b0 = 0x00 := by omega
          by_cases hc : unneg (i + 1) c0 &&& 0x80 ≠ 0
            ∧ (unneg (i + 1) c0 &&& 0x7F) + 1 > MAX_FF_RUN
          · rw [show decompressGo i (b0 :: c0 :: rest2)
                = Except.error (Error.InvalidRunLength ((unneg (i + 1) c0 &&& 0x7F) + 1)) from
                decompressGo_marker_fill i b0 c0 rest2 hb0 hc.1
                  (by simpa [MAX_FF_RUN] using hc.2)] at he
            cases he
          · simp only [decompressGo, hb0] at he
            rw [if_neg (by simp), if_neg hc, except_map_error] at he
            obtain ⟨pre, bl, heq, hu⟩ := ih rest2 (i + 2) (by simp at h ⊢; omega) he
            refine ⟨b0 :: c0 :: pre, bl, by simp [heq], ?_⟩
            rw [show i + (b0 :: c0 :: pre).length = i + 2 + pre.length by simp; omega]
            exact hu

/-- C4: the truncated-marker error — a de-obfuscated marker byte (0x00)
read as the last byte of the buffer makes the decoder fail with
`RunMarkerWithoutControl`; conversely, whenever the decoder returns that
error the buffer ends with a byte whose de-obfuscated value at its
absolute position is the marker; and the one-byte input
`[0x00 XOR 0xFF] = [0xFF]` yields `RunMarkerWithoutControl`. -/
theorem c4_run_marker_without_control :
    (∀ (i b0 : Nat), unneg i b0 = 0x00 →
      decompressGo i [b0] = Except.error Error.RunMarkerWithoutControl) ∧
    (∀ (l : List Nat) (i : Nat),
      decompressGo i l = Except.error Error.RunMarkerWithoutControl →
      ∃ pre b0, l = pre ++ [b0] ∧ unneg (i + pre.length) b0 = 0x00) ∧
    decompress [0x00 ^^^ 0xFF] = Except.error Error.RunMarkerWithoutControl := by
  refine ⟨decompressGo_marker_last, ?_, by rfl⟩
  intro l i he
  exact decompressGo_rmwc l.length l i le_rfl he

theorem c4_run_marker_without_control_witness :
    decompressGo 0 [0xFF] = Except.error Error.RunMarkerWithoutControl ∧
    ∃ pre b0, [0xFF] = pre ++ [b0] ∧ unneg (0 + pre.length) b0 = 0x00 := by
  constructor
  · exact c4_run_marker_without_control.1 0 0xFF (by decide)
  · exact c4_run_marker_without_control.2.1 [0xFF] 0 (by rfl)

/-- C5: obfuscation scope and symmetry — `compress x` is exactly the
logical token stream `rawCompress x` with the bytes at physical positions
`0..3` complemented (positionally, independent of token boundaries, and a
no-op past the end of a short stream, which is the `min (4, len)` bound);
every byte at index 4 or beyond is unaffected; and the decoder's per-byte
de-obfuscation `unneg` complements exactly when the absolute position of
the byte read is < 4. -/
theorem c5_obfuscation_scope :
    (∀ (x : List Nat) (j : Nat),
      (compress x)[j]? = ((rawCompress x)[j]?).map
        (fun b => if j < 4 then b ^^^ 0xFF else b)) ∧
    (∀ (x : List Nat), (compress x).length = (rawCompress x).length) ∧
    (∀ (x : List Nat) (j : Nat), 4 ≤ j → (compress x)[j]? = (rawCompress x)[j]?) ∧
    (∀ (i b : Nat), i < 4 → unneg i b = b ^^^ 0xFF) ∧
    (∀ (i b : Nat), 4 ≤ i → unneg i b = b) := by
  refine ⟨?_, ?_, ?_, ?_, ?_⟩
  · intro x j
    exact negFirst4_getElem? (rawCompress x) j
  · intro x
    exact negFirst4_length (rawCompress x)
  · intro x j hj
    show (negFirst4 (rawCompress x))[j]? = (rawCompress x)[j]?
    rw [negFirst4_getElem? (rawCompress x) j]
    cases (rawCompress x)[j]? with
    | none => rfl
    | some b => simp [show ¬ j < 4 by omega]
  · intro i b hi
    simp [unneg, hi]
  · intro i b hi
    simp [unneg]
    omega

theorem c5_obfuscation_scope_witness :
    (compress [1, 2, 3, 4, 5])[4]? = (rawCompress [1, 2, 3, 4, 5])[4]? ∧
    unneg 2 7 = 7 ^^^ 0xFF ∧ unneg 5 9 = 9 := by
  refine ⟨?_, ?_, ?_⟩
  · exact c5_obfuscation_scope.2.2.1 [1, 2, 3, 4, 5] 4 (by omega)
  · exact c5_obfuscation_scope.2.2.2.1 2 7 (by omega)
  · exact c5_obfuscation_scope.2.2.2.2 5 9 (by omega)

/-- C6: boundary run lengths — inputs of exactly 127, 128, 129 zero bytes
round-trip, with 129 encoded as two run records of lengths 128 and 1;
inputs of exactly 31, 32, 33 bytes 0xFF round-trip, with 33 encoded as
two run records of lengths 32 and 1. -/
theorem c6_boundary_runs :
    decompress (compress (List.replicate 127 0x00)) = Except.ok (List.replicate 127 0x00) ∧
    decompress (compress (List.replicate 128 0x00)) = Except.ok (List.replicate 128 0x00) ∧
    decompress (compress (List.replicate 129 0x00)) = Except.ok (List.replicate 129 0x00) ∧
    rawCompress (List.replicate 129 0x00) = emit_run [] false 128 ++ emit_run [] false 1 ∧
    decompress (compress (List.replicate 31 0xFF)) = Except.ok (List.replicate 31 0xFF) ∧
    decompress (compress (List.replicate 32 0xFF)) = Except.ok (List.replicate 32 0xFF) ∧
    decompress (compress (List.replicate 33 0xFF)) = Except.ok (List.replicate 33 0xFF) ∧
    rawCompress (List.replicate 33 0xFF) = emit_run [] true 32 ++ emit_run [] true 1 :=
  ⟨rfl, rfl, rfl, rfl, rfl, rfl, rfl, rfl⟩

/-- C9: empty input — `compress [] = []` and `decompress [] = Ok []`. -/
theorem c9_empty_input : compress [] = ([] : List Nat) ∧ decompress [] = Except.ok [] :=
  ⟨rfl, rfl⟩

/-- C10: the compressed representation accepted by the decoder is not
unique — `[0xFF, 0x7E]` (one fill-run record of length 2, obfuscated) and
`[0xFF, 0x7F, 0xFF, 0x7F]` (two adjacent fill-run records of length 1,
obfuscated) are distinct yet both decode to `[0xFF, 0xFF]`; hence
`decompress` is not injective on its `Ok` domain and `compress v` need not
equal `c` when `decompress c = Ok v`. -/
theorem c10_decoder_not_injective :
    decompress [0xFF, 0x7E] = Except.ok [0xFF, 0xFF] ∧
    decompress [0xFF, 0x7F, 0xFF, 0x7F] = Except.ok [0xFF, 0xFF] ∧
    [0xFF, 0x7E] ≠ [0xFF, 0x7F, 0xFF, 0x7F] ∧
    compress [0xFF, 0xFF] ≠ [0xFF, 0x7F, 0xFF, 0x7F] :=
  ⟨rfl, rfl, by decide, by decide⟩

/-- Run emission guarded by the source's debug assertions (lines 29-30):
`none` models an assertion failure `debug_assert!(n >= 1)` /
`debug_assert!((!is_ff && n <= MAX_ZERO_RUN) || (is_ff && n <= MAX_FF_RUN))`. -/
def emit_runA (out : List Nat) (is_ff : Bool) (n : Nat) : Option (List Nat) :=
  if 1 ≤ n ∧ ((is_ff = false ∧ n ≤ MAX_ZERO_RUN) ∨ (is_ff = true ∧ n ≤ MAX_FF_RUN)) then
    some (emit_run out is_ff n)
  else none

/-- `flush` with assertion-checked emission. -/
def flushA (out : List Nat) (zero ff : Nat) : Option (List Nat × Nat × Nat) := do
  let p1 ← if ff ≠ 0 then (emit_runA out true ff).map (fun o => (o, 0)) else some (out, ff)
  let p2 ← if zero ≠ 0 then (emit_runA p1.1 false zero).map (fun o => (o, 0)) else some (p1.1, zero)
  some (p2.1, p2.2, p1.2)

/-- One encoder step with assertion-checked emission. -/
def compressStepA (st : List Nat × Nat × Nat) (b : Nat) : Option (List Nat × Nat × Nat) :=
  let out := st.1
  let zero := st.2.1
  let ff := st.2.2
  if b = 0x00 then do
    let q ← if ff ≠ 0 then (emit_runA out true ff).map (fun o => (o, 0)) else some (out, ff)
    let zero1 := zero + 1
    if zero1 = MAX_ZERO_RUN then (emit_runA q.1 false MAX_ZERO_RUN).map (fun o => (o, 0, q.2))
    else some (q.1, zero1, q.2)
  else if b = 0xFF then do
    let q ← if zero ≠ 0 then (emit_runA out false zero).map (fun o => (o, 0)) else some (out, zero)
    let ff1 := ff + 1
    if ff1 = MAX_FF_RUN then (emit_runA q.1 true MAX_FF_RUN).map (fun o => (o, q.2, 0))
    else some (q.1, q.2, ff1)
  else do
    let q ← flushA out zero ff
    some (q.1 ++ [b], q.2.1, q.2.2)

/-- The token-emission loop with assertion-checked emission: `none` iff
some `emit_run` call during the whole encoding violates its
debug assertions. -/
def rawCompressA (input : List Nat) : Option (List Nat) := do
  let st ← input.foldlM compressStepA ([], 0, 0)
  let fin ← flushA st.1 st.2.1 st.2.2
  some fin.1

theorem emit_runA_ok (out : List Nat) (is_ff : Bool) (n : Nat) (h1 : 1 ≤ n)
    (h2 : n ≤ if is_ff then MAX_FF_RUN else MAX_ZERO_RUN) :
    emit_runA out is_ff n = some (emit_run out is_ff n) := by
  cases is_ff with
  | false =>
    rw [emit_runA, if_pos ⟨h1, Or.inl ⟨rfl, by simpa using h2⟩⟩]
  | true =>
    rw [emit_runA, if_pos ⟨h1, Or.inr ⟨rfl, by simpa using h2⟩⟩]

theorem flushA_eq (out : List Nat) (zero ff : Nat) (hz : zero ≤ 128) (hf : ff ≤ 32) :
    flushA out zero ff = some (flush out zero ff) := by
  by_cases hf0 : ff = 0
  · by_cases hz0 : zero = 0
    · simp [flushA, flush, hf0, hz0]
    · simp [flushA, flush, hf0, hz0,
        emit_runA_ok out false zero (by omega) (by simp [MAX_ZERO_RUN]; omega)]
  · by_cases hz0 : zero = 0
    · simp [flushA, flush, hf0, hz0,
        emit_runA_ok out true ff (by omega) (by simp [MAX_FF_RUN]; omega)]
    · simp [flushA, flush, hf0, hz0,
        emit_runA_ok out true ff (by omega) (by simp [MAX_FF_RUN]; omega),
        emit_runA_ok (emit_run out true ff) false zero (by omega)
          (by simp [MAX_ZERO_RUN]; omega)]

theorem compressStepA_eq (out : List Nat) (zero ff : Nat) (b : Nat)
    (hz : zero ≤ 127) (hf : ff ≤ 31) :
    compressStepA (out, zero, ff) b = some (compressStep (out, zero, ff) b) := by
  by_cases hb0 : b = 0x00
  · subst hb0
    by_cases hff : ff = 0
    · by_cases hm : zero + 1 = MAX_ZERO_RUN <;>
        simp [compressStepA, compressStep, hff, hm,
          emit_runA_ok out false MAX_ZERO_RUN (by simp [MAX_ZERO_RUN]) (by simp)]
    · have hrw := emit_runA_ok out true ff (by omega) (by simp [MAX_FF_RUN]; omega)
      by_cases hm : zero + 1 = MAX_ZERO_RUN <;>
        simp [compressStepA, compressStep, hff, hm, hrw,
          emit_runA_ok (emit_run out true ff) false MAX_ZERO_RUN
            (by simp [MAX_ZERO_RUN]) (by simp)]
  · by_cases hbf : b = 0xFF
    · subst hbf
      by_cases hzz : zero = 0
      · by_cases hm : ff + 1 = MAX_FF_RUN <;>
          simp [compressStepA, compressStep, hb0, hzz, hm,
            emit_runA_ok out true MAX_FF_RUN (by simp [MAX_FF_RUN]) (by simp)]
      · have hrw := emit_runA_ok out false zero (by omega) (by simp [MAX_ZERO_RUN]; omega)
        by_cases hm : ff + 1 = MAX_FF_RUN <;>
          simp [compressStepA, compressStep, hb0, hzz, hm, hrw,
            emit_runA_ok (emit_run out false zero) true MAX_FF_RUN
              (by simp [MAX_FF_RUN]) (by simp)]
    · simp [compressStepA, compressStep, hb0, hbf, flushA_eq out zero ff (by omega) (by omega)]

theorem foldlM_compressStepA : ∀ (x : List Nat) (st : List Nat × Nat × Nat) (p : List Nat),
    EncInv st p → x.foldlM compressStepA st = some (x.foldl compressStep st) := by
  intro x
  induction x with
  | nil =>
    intro st p h
    rfl
  | cons b x ih =>
    intro st p h
    obtain ⟨out, zf⟩ := st
    obtain ⟨zero, ff⟩ := zf
    obtain ⟨hz, hf, hrest⟩ := h
    rw [List.foldlM_cons, compressStepA_eq out zero ff b hz hf]
    show List.foldlM compressStepA (compressStep (out, zero, ff) b) x
      = some (List.foldl compressStep (out, zero, ff) (b :: x))
    rw [ih (compressStep (out, zero, ff) b) (p ++ [b])
      (encInv_step out zero ff p b ⟨hz, hf, hrest⟩)]
    rfl

theorem rawCompressA_eq (x : List Nat) : rawCompressA x = some (rawCompress x) := by
  have hinv := encInv_foldl x ([], 0, 0) [] encInv_init
  rcases hfold : x.foldl compressStep ([], 0, 0) with ⟨out, zf⟩
  rcases zf with ⟨zero, ff⟩
  rw [hfold] at hinv
  obtain ⟨hz, hf, hrest⟩ := hinv
  unfold rawCompressA rawCompress
  rw [foldlM_compressStepA x ([], 0, 0) [] encInv_init, hfold]
  show (flushA out zero ff).bind (fun fin => some fin.1) = some (flush out zero ff).1
  rw [flushA_eq out zero ff (by omega) (by omega)]
  rfl

/-- C7: the encoder's run-counter invariant — after scanning any input
prefix (equivalently, any input `x`, since the state after a prefix of a
longer input is the state after that prefix as an input), the two run
counters are mutually exclusive and bounded (`zero` never exceeds 128 and
`ff` never exceeds 32 — the post-step states in fact satisfy the strict
bounds 127 and 31); consequently the assertion-checked encoder
`rawCompressA`, in which every `emit_run` call checks the source's
`debug_assert!`s (`1 <= n` and the per-kind bound), never fails and agrees
with `rawCompress`; and every control byte emitted for an in-range run
decodes back to exactly its length and kind. -/
theorem c7_encoder_invariant :
    (∀ (x : List Nat),
      ((x.foldl compressStep ([], 0, 0)).2.1 = 0 ∨ (x.foldl compressStep ([], 0, 0)).2.2 = 0) ∧
      (x.foldl compressStep ([], 0, 0)).2.1 ≤ 128 ∧
      (x.foldl compressStep ([], 0, 0)).2.2 ≤ 32) ∧
    (∀ (x : List Nat), rawCompressA x = some (rawCompress x)) ∧
    (∀ (is_ff : Bool) (n : Nat), 1 ≤ n → n ≤ (if is_ff then MAX_FF_RUN else MAX_ZERO_RUN) →
      (runCtrl is_ff n &&& 0x7F) + 1 = n ∧ ((runCtrl is_ff n &&& 0x80 ≠ 0) ↔ is_ff = true)) := by
  refine ⟨?_, rawCompressA_eq, ?_⟩
  · intro x
    have hinv := encInv_foldl x ([], 0, 0) [] encInv_init
    rcases hfold : x.foldl compressStep ([], 0, 0) with ⟨out, zf⟩
    rcases zf with ⟨zero, ff⟩
    rw [hfold] at hinv
    obtain ⟨hz, hf, hmx, hrest⟩ := hinv
    exact ⟨hmx, show zero ≤ 128 by omega, show ff ≤ 32 by omega⟩
  · intro is_ff n h1 h2
    cases is_ff with
    | false =>
      obtain ⟨ha, hb⟩ := runCtrl_false_spec n
        (by simp [MAX_ZERO_RUN] at h2; omega) h1
      exact ⟨ha, by simp [hb]⟩
    | true =>
      obtain ⟨ha, hb⟩ := runCtrl_true_spec n
        (by simp [MAX_FF_RUN] at h2; omega) h1
      exact ⟨ha, by simp [hb]⟩

theorem c7_encoder_invariant_witness :
    (runCtrl true 32 &&& 0x7F) + 1 = 32 ∧ ((runCtrl true 32 &&& 0x80 ≠ 0) ↔ true = true) :=
  c7_encoder_invariant.2.2 true 32 (by decide) (by decide)

/-- Helper potential for the size bound: bytes already emitted plus two for
each pending (non-zero) run counter. -/
def encCost (st : List Nat × Nat × Nat) : Nat :=
  st.1.length + (if st.2.1 = 0 then 0 else 2) + (if st.2.2 = 0 then 0 else 2)

theorem emit_run_length (out : List Nat) (is_ff : Bool) (n : Nat) :
    (emit_run out is_ff n).length = out.length + 2 := by
  simp [emit_run]

theorem flush_length (out : List Nat) (zero ff : Nat) :
    (flush out zero ff).1.length
      = out.length + (if zero = 0 then 0 else 2) + (if ff = 0 then 0 else 2) := by
  by_cases hf0 : ff = 0
  · subst hf0
    by_cases hz0 : zero = 0
    · subst hz0
      simp [flush_none out 0 0 rfl rfl]
    · simp [flush_z out zero 0 hz0 rfl, hz0, emit_run_length]
  · by_cases hz0 : zero = 0
    · subst hz0
      simp [flush_f out 0 ff rfl hf0, hf0, emit_run_length]
    · simp [flush_both out zero ff hz0 hf0, hz0, hf0, emit_run_length]

theorem encCost_step (out : List Nat) (zero ff : Nat) (b : Nat) :
    encCost (compressStep (out, zero, ff) b) ≤ encCost (out, zero, ff) + 2 := by
  by_cases hb0 : b = 0x00
  · subst hb0
    by_cases hff : ff = 0
    · by_cases hm : zero + 1 = MAX_ZERO_RUN
      · have hz127 : zero ≠ 0 := by simp [MAX_ZERO_RUN] at hm; omega
        rw [cs_zero_noflush_max out zero ff hff hm]
        simp [encCost, emit_run_length, hff, hz127]
      · rw [cs_zero_noflush_nomax out zero ff hff hm]
        simp [encCost, emit_run_length, hff]
    · by_cases hm : zero + 1 = MAX_ZERO_RUN
      · have hz127 : zero ≠ 0 := by simp [MAX_ZERO_RUN] at hm; omega
        rw [cs_zero_flush_max out zero ff hff hm]
        simp [encCost, emit_run_length, hff, hz127]
      · rw [cs_zero_flush_nomax out zero ff hff hm]
        simp [encCost, emit_run_length, hff]
  · by_cases hbf : b = 0xFF
    · subst hbf
      by_cases hzz : zero = 0
      · by_cases hm : ff + 1 = MAX_FF_RUN
        · have hf31 : ff ≠ 0 := by simp [MAX_FF_RUN] at hm; omega
          rw [cs_ff_noflush_max out zero ff hzz hm]
          simp [encCost, emit_run_length, hzz, hf31]
        · rw [cs_ff_noflush_nomax out zero ff hzz hm]
          simp [encCost, emit_run_length, hzz]
      · by_cases hm : ff + 1 = MAX_FF_RUN
        · have hf31 : ff ≠ 0 := by simp [MAX_FF_RUN] at hm; omega
          rw [cs_ff_flush_max out zero ff hzz hm]
          simp [encCost, emit_run_length, hzz, hf31]
        · rw [cs_ff_flush_nomax out zero ff hzz hm]
          simp [encCost, emit_run_length, hzz]
    · rw [cs_lit out zero ff b hb0 hbf]
      obtain ⟨hc1, hc2⟩ := flush_counters out zero ff
      rw [hc1, hc2]
      have hflen := flush_length out zero ff
      simp [encCost, hflen]

theorem encCost_foldl : ∀ (x : List Nat) (st : List Nat × Nat × Nat),
    encCost (x.foldl compressStep st) ≤ encCost st + 2 * x.length := by
  intro x
  induction x with
  | nil =>
    intro st
    simp
  | cons b x ih =>
    intro st
    obtain ⟨out, zf⟩ := st
    obtain ⟨zero, ff⟩ := zf
    have h1 := ih (compressStep (out, zero, ff) b)
    have h2 := encCost_step out zero ff b
    have h3 : (b :: x).length = x.length + 1 := by simp
    calc encCost (List.foldl compressStep (out, zero, ff) (b :: x))
        = encCost (List.foldl compressStep (compressStep (out, zero, ff) b) x) := rfl
      _ ≤ encCost (compressStep (out, zero, ff) b) + 2 * x.length := h1
      _ ≤ encCost (out, zero, ff) + 2 * (b :: x).length := by rw [h3]; omega

/-- C8: output-size bound — the length of `compress x` is at most twice
the length of `x`: each run of `k >= 1` special bytes costs 2 output
bytes and each literal byte costs 1 (plus at most 2 for a pending run),
and the obfuscation pass does not change the length. -/
theorem c8_output_size_bound (x : List Nat) : (compress x).length ≤ 2 * x.length := by
  show (negFirst4 (rawCompress x)).length ≤ 2 * x.length
  rw [negFirst4_length]
  rcases hfold : x.foldl compressStep ([], 0, 0) with ⟨out, zf⟩
  rcases zf with ⟨zero, ff⟩
  have hraw : rawCompress x = (flush out zero ff).1 := by
    unfold rawCompress
    rw [hfold]
  have hflen := flush_length out zero ff
  rw [hraw, hflen]
  have hcost := encCost_foldl x ([], 0, 0)
  rw [hfold] at hcost
  simp only [encCost, List.length_nil] at hcost
  split_ifs at hcost ⊢ <;> omega

end Cdrle
